import Mathlib

/-!
# mumax3: magnetic configurations, script start-up and API listing

Shallow embedding of

* `engine/config.go`  : the `Config` constructors and combinators,
* `mumax3/main.go`    : `RunFileAndServe`,
* `doc/apigen.go`     : `buildAPI`, the `entries` sort interface and the `api` filters.

`float64` code is embedded over an arbitrary scalar type `F` that supplies the
arithmetic the source uses; the functions of package `math` that a constructor calls
(`math.Sqrt`, `math.Exp`, `math.Cos`, `math.Sin`) are arguments of its embedding, and so is
the mesh geometry (`Mesh().CellSize()[X]`).  Statements "over real arithmetic" are the
instances `F := ℝ` with `Real.sqrt`, `Real.exp`, `Real.cos`, `Real.sin`.
-/

namespace Mumax

/-! ## engine/config.go -/

/-- The type `data.Vector`, a `[3]float64` indexed by the constants `X`, `Y`, `Z`. -/
structure Vector (F : Type) where
  X : F
  Y : F
  Z : F
deriving DecidableEq, Repr

/-- Magnetic configuration: returns the m vector for position (x,y,z).
`type Config func(x, y, z float64) data.Vector`. -/
abbrev Config (F : Type) := F → F → F → Vector F

/-- Modelled from the spec: the helper `sqr64` of package `engine` is not among the
sources; it squares its argument, which is what the Gaussian profiles
`exp(-(x/ww)^2)` and `exp(-r2/diam2)` of the constructors use it for. -/
def sqr64 {F : Type} [Mul F] (x : F) : F := x * x

/-- Go `Uniform(mx, my, mz)`: a uniform magnetization state. -/
def Uniform {F : Type} (mx my mz : F) : Config F :=
  fun _ _ _ => ⟨mx, my, mz⟩

/-- Go `Vortex(circ, pol)`.  `cellX` is `Mesh().CellSize()[X]`, `Sqrt` and `Exp` are
`math.Sqrt` and `math.Exp`; `float64(circ)` is the cast of the integer. -/
def Vortex {F : Type} [Field F] (Sqrt Exp : F → F) (cellX : F) (circ pol : Int) : Config F :=
  let diam2 := 2 * sqr64 cellX
  fun x y _ =>
    let r2 := x * x + y * y
    let r := Sqrt r2
    let mx := -y * (circ : F) / r
    let my := x * (circ : F) / r
    let mz := 1.5 * (pol : F) * Exp (-r2 / diam2)
    ⟨mx, my, mz⟩

/-- Go `VortexWall(mleft, mright, circ, pol)`.  `worldY` is `Mesh().WorldSize()[Y]`. -/
def VortexWall {F : Type} [Field F] [LT F] [DecidableRel (fun a b : F => a < b)]
    (Sqrt Exp : F → F) (cellX worldY : F) (mleft mright : F) (circ pol : Int) : Config F :=
  let h := worldY
  let v := Vortex Sqrt Exp cellX circ pol
  fun x y z =>
    if x < -h / 2 then ⟨mleft, 0, 0⟩
    else if x > h / 2 then ⟨mright, 0, 0⟩
    else v x y z

/-- Go `TwoDomain(mx1, my1, mz1, mxwall, mywall, mzwall, mx2, my2, mz2)`.
`cellX` is `Mesh().CellSize()[X]`, `Exp` is `math.Exp`. -/
def TwoDomain {F : Type} [Field F] [LT F] [DecidableRel (fun a b : F => a < b)]
    (Exp : F → F) (cellX : F)
    (mx1 my1 mz1 mxwall mywall mzwall mx2 my2 mz2 : F) : Config F :=
  let ww := 2 * cellX
  fun x _ _ =>
    let m : Vector F := if x < 0 then ⟨mx1, my1, mz1⟩ else ⟨mx2, my2, mz2⟩
    let gauss := Exp (-sqr64 (x / ww))
    let m : Vector F := { m with X := (1 - gauss) * m.X + gauss * mxwall }
    let m : Vector F := { m with Y := (1 - gauss) * m.Y + gauss * mywall }
    let m : Vector F := { m with Z := (1 - gauss) * m.Z + gauss * mzwall }
    m

/-- Go `(c Config) Transl(dx, dy, dz)`: a translated copy of configuration `c`.
Only the subtraction of the scalar type is used. -/
def Config.Transl {F : Type} [Sub F] (c : Config F) (dx dy dz : F) : Config F :=
  fun x y z => c (x - dx) (y - dy) (z - dz)

/-- Go `(c Config) Scale(sx, sy, sz)`: a scaled copy of configuration `c`.
Only the division of the scalar type is used. -/
def Config.Scale {F : Type} [Div F] (c : Config F) (sx sy sz : F) : Config F :=
  fun x y z => c (x / sx) (y / sy) (z / sz)

/-- Go `(c Config) RotZ(θ)`: rotates the configuration around the Z-axis, over θ radians.
`Cos` and `Sin` are `math.Cos` and `math.Sin`. -/
def Config.RotZ {F : Type} [Add F] [Sub F] [Mul F] [Neg F]
    (Cos Sin : F → F) (c : Config F) (θ : F) : Config F :=
  let cos := Cos θ
  let sin := Sin θ
  fun x y z =>
    let x_ := x * cos + y * sin
    let y_ := -x * sin + y * cos
    let m := c x_ y_ z
    let mx_ := m.X * cos - m.Y * sin
    let my_ := m.X * sin + m.Y * cos
    ⟨mx_, my_, m.Z⟩

/-- The state of the global source of package `math/rand`: the outcomes of the calls of
`rand.Float64()` still to come, each in `[0, 1)`. -/
abbrev RandSource (F : Type) := Nat → F

/-- Go `rand.Float64()`: hands out the next outcome and advances the source. -/
def RandFloat64 {F : Type} (s : RandSource F) : F × RandSource F :=
  (s 0, fun n => s (n + 1))

/-- A configuration whose evaluation draws from the random source (what `AddNoise`
returns): the source is passed in and the advanced source is passed out. -/
abbrev NoisyConfig (F : Type) := F → F → F → RandSource F → Vector F × RandSource F

/-- Go `AddNoise(amplitude, c)`.  The loop `for i := range m` runs over the three
components in order, each adding `rand.Float64() - 0.5`; `amplitude` does not occur in
the body. -/
def AddNoise {F : Type} [Field F] (_amplitude : F) (c : Config F) : NoisyConfig F :=
  fun x y z s =>
    let m := c x y z
    let (r0, s) := RandFloat64 s
    let m : Vector F := { m with X := m.X + (r0 - 0.5) }
    let (r1, s) := RandFloat64 s
    let m : Vector F := { m with Y := m.Y + (r1 - 0.5) }
    let (r2, s) := RandFloat64 s
    let m : Vector F := { m with Z := m.Z + (r2 - 0.5) }
    (m, s)

/-! ## mumax3/main.go -/

/-- What `RunFileAndServe` does to the outside world, in the order it does it.
`Code` is the type of the compiled script (the executable tree). -/
inductive Event (Code : Type) where
  /-- Call of `ioutil.ReadFile(fname)`. -/
  | ReadFile (fname : String)
  /-- Call of `engine.World.Compile(src)`. -/
  | Compile (src : String)
  /-- The process is terminated by `util.FatalErr` reporting `err`. -/
  | Fatal (err : String)
  /-- The statement `go engine.Serve(port)`: the web server is started. -/
  | GoServe (port : String)
  /-- Call of `code.Eval()`: the statements of the script are executed. -/
  | Eval (code : Code)
deriving DecidableEq, Repr

/-- The collaborators of `RunFileAndServe` that are not part of it: the file system, the
compiler of the script world, and the flag `-http`. A Go result pair `(value, err)` is an
`Except`: `.error e` stands for `err != nil`. -/
structure World (Code : Type) where
  ReadFile : String → Except String String
  Compile : String → Except String Code
  flag_port : String

/-- Code that logs its events and can terminate the process with an error. -/
abbrev Run (Code : Type) := ExceptT String (StateM (List (Event Code)))

/-- Append one event to the log. -/
def emit {Code : Type} (e : Event Code) : Run Code Unit :=
  modify (fun log => log ++ [e])

/-- Modelled from the spec: `util.FatalErr` is not among the sources. "A compile error
aborts the whole run before any execution (fatal, reported, nothing partially applied)":
with `err != nil` the error is reported and the run ends there, with `err == nil` the call
returns and the value that came with the error is used. -/
def FatalErr {Code α : Type} (r : Except String α) : Run Code α :=
  match r with
  | .ok a => pure a
  | .error err => do
    emit (Event.Fatal err)
    throw err

/-- Go `RunFileAndServe(fname)`: runs a script file. -/
def RunFileAndServe {Code : Type} (w : World Code) (fname : String) : Run Code Unit := do
  -- first we compile the entire file into an executable tree
  emit (Event.ReadFile fname)
  let bytes ← FatalErr (w.ReadFile fname)
  emit (Event.Compile bytes)
  let code ← FatalErr (w.Compile bytes)
  -- now the parser is not used anymore so it can handle web requests
  emit (Event.GoServe w.flag_port)
  -- start executing the tree, possibly injecting commands from web gui
  emit (Event.Eval code)

/-- Run from an empty log: the outcome (`.error err` when the process was terminated
with `err`) and the events that happened. -/
def Run.exec {Code α : Type} (m : Run Code α) : Except String α × List (Event Code) :=
  (ExceptT.run m).run []

/-- The web server was started somewhere in the log. -/
def served {Code : Type} (log : List (Event Code)) : Bool :=
  log.any (fun e => match e with | Event.GoServe _ => true | _ => false)

/-- A statement of the script was evaluated somewhere in the log. -/
def evaluated {Code : Type} (log : List (Event Code)) : Bool :=
  log.any (fun e => match e with | Event.Eval _ => true | _ => false)

/-! ## doc/apigen.go -/

/-- What the generator asks of a `reflect.Type`: `t.String()`, whether
`t.Kind() == reflect.Func`, and the `String()` of each `t.Out(i)`. -/
structure ReflectType where
  str : String
  isFunc : Bool
  outs : List String
deriving DecidableEq, Repr

/-- Go `type entry struct { name string; Type reflect.Type; Doc string; touched bool }`. -/
structure entry where
  name : String
  Typ : ReflectType
  Doc : String
  touched : Bool
deriving DecidableEq, Repr

/-- A pointer `*entry`. -/
abbrev Ptr := Nat

/-- The allocated `entry` values: `next` is the address the next `&entr` gets, `cell p`
is what `*p` reads. -/
structure Store where
  next : Ptr
  cell : Ptr → entry

/-- Nothing allocated yet. -/
def Store.empty : Store := ⟨0, fun _ => ⟨"", ⟨"", false, []⟩, "", false⟩⟩

/-- The expression `&entr` for a fresh variable `entr`: a new address. -/
def Store.alloc (s : Store) (entr : entry) : Ptr × Store :=
  (s.next, ⟨s.next + 1, Function.update s.cell s.next entr⟩)

/-- The assignment `e.touched = true` through the pointer `e`. -/
def Store.touch (s : Store) (e : Ptr) : Store :=
  { s with cell := Function.update s.cell e { s.cell e with touched := true } }

/-- Go `type entries []*entry`. -/
abbrev entries := List Ptr

/-- Go `strings.HasPrefix(s, pre)`. -/
def HasPrefix (s pre : String) : Bool := pre.data.isPrefixOf s.data

/-- Go `strings.Replace(s, old, new, -1)` for a non-empty `old`, on the characters:
every non-overlapping occurrence of `old`, from the left, becomes `new`. `skip` counts
the characters of an occurrence already replaced that are still to be passed over. -/
def replaceAll (old new : List Char) : Nat → List Char → List Char
  | _, [] => []
  | skip + 1, _ :: cs => replaceAll old new skip cs
  | 0, c :: cs =>
    if old.isPrefixOf (c :: cs) then new ++ replaceAll old new (old.length - 1) cs
    else c :: replaceAll old new 0 cs

/-- Go `strings.Replace(s, old, new, -1)`. -/
def Replace (s old new : String) : String := ⟨replaceAll old.data new.data 0 s.data⟩

/-- Go `cleanType(typ)`: dumbed-down type. -/
def cleanType (typ : String) : String :=
  let typ := Replace typ "engine." ""
  let typ := Replace typ "*data." ""
  let typ := Replace typ "script." ""
  typ

/-- Go `(e *entry) Ret()`: return value. -/
def entry.Ret (e : entry) : String :=
  let t := e.Typ
  if t.isFunc && t.outs.length == 1 then cleanType (t.outs.headD "") else ""

/-- Go `match(a, b)`; `ToLower` is `strings.ToLower`. -/
def matchStr (ToLower : String → String) (a b : String) : Bool :=
  let a := ToLower a
  let b := ToLower b
  a == b

/-- Go `(e *entries) Len()`. -/
def entries.Len (e : entries) : Nat := e.length

/-- Go `(e *entries) Less(i, j)`: `ToLower((*e)[i].name) < ToLower((*e)[j].name)`, the
strings compared as Go compares them, lexicographically. -/
def entries.Less (ToLower : String → String) (s : Store) (e : entries) (i j : Nat) : Bool :=
  decide (ToLower (s.cell (e.getD i 0)).name < ToLower (s.cell (e.getD j 0)).name)

/-- Go `(e *entries) Swap(i, j)`: `(*e)[i], (*e)[j] = (*e)[j], (*e)[i]`. -/
def entries.Swap (e : entries) (i j : Nat) : entries :=
  (e.set i (e.getD j 0)).set j (e.getD i 0)

/-- The inner loop of the insertion sort of Go package `sort`,
`for j := i; j > a && data.Less(j, j-1); j-- { data.Swap(j, j-1) }`, started at `j`. -/
def sortSink (ToLower : String → String) (s : Store) (a : Nat) : Nat → entries → entries
  | 0, e => e
  | j + 1, e =>
    if j + 1 > a && entries.Less ToLower s e (j + 1) j then
      sortSink ToLower s a j (entries.Swap e (j + 1) j)
    else e

/-- Go `insertionSort(data, a, b)` of package `sort`:
`for i := a + 1; i < b; i++ { <inner loop from i> }`. -/
def insertionSort (ToLower : String → String) (s : Store) (e : entries) (a b : Nat) : entries :=
  (List.range' (a + 1) (b - (a + 1))).foldl (fun e i => sortSink ToLower s a i e) e

/-- Go `sort.Sort(&e)`. The standard library is not part of the repository; it reaches
the slice only through `Len`, `Less` and `Swap`, and is represented here by the insertion
sort it uses on short ranges, run over the whole slice. -/
def sortSort (ToLower : String → String) (s : Store) (e : entries) : entries :=
  insertionSort ToLower s e 0 (entries.Len e)

/-- The globals `api_entries` and `api_ident` (a map, as the function that looks a key
up), with the entries allocated. -/
structure ApiState where
  store : Store
  api_entries : entries
  api_ident : String → Option entry

/-- One turn of the loop of `buildAPI` for the pair `K, v` of the map `doc`; `none` when
`ident[k]` is missing, where `ident[k].Type()` panics on the nil interface. -/
def buildStep (ToLower : String → String) (ident : String → Option ReflectType)
    (acc : Option (entries × Store × (String → Option entry))) (Kv : String × String) :
    Option (entries × Store × (String → Option entry)) :=
  match acc with
  | none => none
  | some (e, s, api_ident) =>
    let K := Kv.1
    let v := Kv.2
    let k := ToLower K
    match ident k with
    | none => none
    | some t =>
      let entr : entry := ⟨K, t, v, false⟩
      let (p, s) := s.alloc entr
      some (e ++ [p], s, Function.update api_ident k (some entr))

/-- Go `buildAPI()`. `ident` is `engine.World.Identifiers` (a name to the type of what it
names), `doc` is `engine.World.Doc` as the pairs `K, v` in the order `range` happens to
visit them. The calls `cuda.Init` and `cuda.LockThread` touch nothing that is read here. -/
def buildAPI (ToLower : String → String) (ident : String → Option ReflectType)
    (doc : List (String × String)) : Option ApiState :=
  match doc.foldl (buildStep ToLower ident) (some ([], Store.empty, fun _ => none)) with
  | none => none
  | some (e, s, api_ident) => some ⟨s, sortSort ToLower s e, api_ident⟩

/-- Go `type api struct { Entries entries }`. -/
structure api where
  Entries : entries

/-- Go `(a *api) remaining()`: list of entries not used so far. -/
def api.remaining (a : api) (s : Store) : List Ptr :=
  a.Entries.foldl (fun E e => if !(s.cell e).touched then E ++ [e] else E) []

/-- The shared shape of `FilterType`, `FilterReturn` and `FilterName`: for every `e` of
`a.remaining()` and every `t` of `typ`, when `match(t, subject(e))` and `e.name` has no
prefix `ext_`, touch `e` and append it to the result. -/
def filterLoop (ToLower : String → String) (subject : entry → String) (a : api)
    (typ : List String) (s : Store) : List Ptr × Store :=
  (a.remaining s).foldl (fun (acc : List Ptr × Store) e =>
    typ.foldl (fun (acc : List Ptr × Store) t =>
      if matchStr ToLower t (subject (acc.2.cell e)) &&
          !HasPrefix (acc.2.cell e).name "ext_" then
        (acc.1 ++ [e], acc.2.touch e)
      else acc) acc) ([], s)

/-- Go `(a *api) FilterType(typ ...string)`: matches `e.Type.String()`. -/
def api.FilterType (ToLower : String → String) (a : api) (typ : List String) (s : Store) :
    List Ptr × Store :=
  filterLoop ToLower (fun e => e.Typ.str) a typ s

/-- Go `(a *api) FilterReturn(typ ...string)`: matches `e.Ret()`. -/
def api.FilterReturn (ToLower : String → String) (a : api) (typ : List String) (s : Store) :
    List Ptr × Store :=
  filterLoop ToLower entry.Ret a typ s

/-- Go `(a *api) FilterName(typ ...string)`: matches `e.name`. -/
def api.FilterName (ToLower : String → String) (a : api) (typ : List String) (s : Store) :
    List Ptr × Store :=
  filterLoop ToLower entry.name a typ s

/-- Go `(a *api) FilterPrefix(pre string)`. -/
def api.FilterPrefix (a : api) (pre : String) (s : Store) : List Ptr × Store :=
  (a.remaining s).foldl (fun (acc : List Ptr × Store) e =>
    if HasPrefix (acc.2.cell e).name pre then (acc.1 ++ [e], acc.2.touch e) else acc) ([], s)

/-- Go `(a *api) FilterLeftovers()`. -/
def api.FilterLeftovers (a : api) (s : Store) : List Ptr :=
  a.remaining s

/-- One call of a filter of the template, with its arguments. -/
inductive FilterCall where
  | FilterType (typ : List String)
  | FilterReturn (typ : List String)
  | FilterName (typ : List String)
  | FilterPrefix (pre : String)
deriving DecidableEq, Repr

/-- Perform one filter call. -/
def FilterCall.run (ToLower : String → String) (a : api) (c : FilterCall) (s : Store) :
    List Ptr × Store :=
  match c with
  | .FilterType typ => a.FilterType ToLower typ s
  | .FilterReturn typ => a.FilterReturn ToLower typ s
  | .FilterName typ => a.FilterName ToLower typ s
  | .FilterPrefix pre => a.FilterPrefix pre s

/-- Perform the calls in order, then `FilterLeftovers`; the returned lists, in order. -/
def runFilters (ToLower : String → String) (a : api) :
    List FilterCall → Store → List (List Ptr)
  | [], s => [a.FilterLeftovers s]
  | c :: cs, s =>
    let r := c.run ToLower a s
    r.1 :: runFilters ToLower a cs r.2

/-- The patterns of one call, as `match` sees them (lower-cased). -/
def FilterCall.patterns (ToLower : String → String) : FilterCall → List String
  | .FilterType typ => typ.map ToLower
  | .FilterReturn typ => typ.map ToLower
  | .FilterName typ => typ.map ToLower
  | .FilterPrefix _ => []

/-- Three allocated entries: a material parameter, a function, and an extension. -/
def sampleStore : Store :=
  let s := Store.empty
  let s := (s.alloc ⟨"Msat", ⟨"float64", false, []⟩, "Saturation magnetization", false⟩).2
  let s := (s.alloc ⟨"Uniform", ⟨"func(float64, float64, float64) engine.Config", true,
    ["engine.Config"]⟩, "Uniform magnetization in given direction", false⟩).2
  let s := (s.alloc ⟨"ext_rmSurfaceCharge", ⟨"func(int, float64, float64)", true, []⟩,
    "Compensate magnetic charges on the left and right sides", false⟩).2
  s

/-- A small `engine.World.Identifiers`: the types of three names, under their
lower-cased keys. -/
def sampleIdent (k : String) : Option ReflectType :=
  if k = "msat" then some ⟨"float64", false, []⟩
  else if k = "alpha" then some ⟨"float64", false, []⟩
  else if k = "uniform" then
    some ⟨"func(float64, float64, float64) engine.Config", true, ["engine.Config"]⟩
  else none

/-- A small `engine.World.Doc`, in one of the orders `range` can visit it. -/
def sampleDoc : List (String × String) :=
  [("Msat", "Saturation magnetization"), ("alpha", "Landau-Lifshitz damping constant"),
    ("Uniform", "Uniform magnetization in given direction")]

/-- ASCII lower-casing, the part of `strings.ToLower` that the names of the script
world need; used for concrete instances only. -/
def asciiToLower (s : String) : String := ⟨s.data.map Char.toLower⟩

/-! ## Theorems: engine/config.go -/

/-- C1: for every Config `c` and all `dx, dy, dz, x, y, z`, the Config returned by
`c.Transl(dx, dy, dz)` evaluated at `(x, y, z)` equals `c` evaluated at
`(x-dx, y-dy, z-dz)`. It holds for every scalar type and every subtraction on it, the
subtraction of `float64` on finite arguments among them. -/
theorem Transl_eval {F : Type} [Sub F] (c : Config F) (dx dy dz x y z : F) :
    Config.Transl c dx dy dz x y z = c (x - dx) (y - dy) (z - dz) :=
  rfl

/-- C2: for every Config `c` and all `sx, sy, sz, x, y, z`, the Config returned by
`c.Scale(sx, sy, sz)` evaluated at `(x, y, z)` equals `c` evaluated at
`(x/sx, y/sy, z/sz)`. It holds for every scalar type and every division on it. -/
theorem Scale_eval {F : Type} [Div F] (c : Config F) (sx sy sz x y z : F) :
    Config.Scale c sx sy sz x y z = c (x / sx) (y / sy) (z / sz) :=
  rfl

/-- C4 (the code at the failing input): with amplitude `0`, the configuration
`Uniform(0, 0, 0)` and random draws that all come out `0`, `AddNoise` returns
`(-1/2, -1/2, -1/2)` at the origin, while the configuration itself is `(0, 0, 0)` there:
every component moved by `1/2`, which is more than the amplitude `|0|`. -/
theorem AddNoise_zero_amplitude_moves :
    (AddNoise (0 : ℚ) (Uniform 0 0 0) 0 0 0 (fun _ => 0)).1 = ⟨-1 / 2, -1 / 2, -1 / 2⟩ ∧
      (Uniform (0 : ℚ) 0 0) 0 0 0 = ⟨0, 0, 0⟩ ∧
      |(0 : ℚ)| < |(AddNoise (0 : ℚ) (Uniform 0 0 0) 0 0 0 (fun _ => 0)).1.X -
        ((Uniform (0 : ℚ) 0 0) 0 0 0).X| := by
  refine ⟨?_, rfl, ?_⟩
  · simp only [AddNoise, Uniform, RandFloat64]
    norm_num
  · simp only [AddNoise, Uniform, RandFloat64]
    norm_num

/-- C7: for a mesh with non-zero cell size `cs`, over the reals, `TwoDomain(m1, mwall, m2)`
at `(x, y, z)` is `(1-g)*d + g*mwall` componentwise with `g = exp(-(x/ww)^2)`,
`ww = 2*cs`, and `d` the left-domain vector for `x < 0` and the right-domain vector
otherwise; every component lies between the components of `d` and `mwall`; at `x = 0`
the result is `mwall`. -/
theorem TwoDomain_profile (cs : ℝ) (hcs : cs ≠ 0)
    (mx1 my1 mz1 mxwall mywall mzwall mx2 my2 mz2 x y z : ℝ) :
    TwoDomain Real.exp cs mx1 my1 mz1 mxwall mywall mzwall mx2 my2 mz2 x y z =
        ⟨(1 - Real.exp (-(x / (2 * cs)) ^ 2)) * (if x < 0 then mx1 else mx2) +
            Real.exp (-(x / (2 * cs)) ^ 2) * mxwall,
          (1 - Real.exp (-(x / (2 * cs)) ^ 2)) * (if x < 0 then my1 else my2) +
            Real.exp (-(x / (2 * cs)) ^ 2) * mywall,
          (1 - Real.exp (-(x / (2 * cs)) ^ 2)) * (if x < 0 then mz1 else mz2) +
            Real.exp (-(x / (2 * cs)) ^ 2) * mzwall⟩ ∧
      (min (if x < 0 then mx1 else mx2) mxwall ≤
          (TwoDomain Real.exp cs mx1 my1 mz1 mxwall mywall mzwall mx2 my2 mz2 x y z).X ∧
        (TwoDomain Real.exp cs mx1 my1 mz1 mxwall mywall mzwall mx2 my2 mz2 x y z).X ≤
          max (if x < 0 then mx1 else mx2) mxwall) ∧
      (min (if x < 0 then my1 else my2) mywall ≤
          (TwoDomain Real.exp cs mx1 my1 mz1 mxwall mywall mzwall mx2 my2 mz2 x y z).Y ∧
        (TwoDomain Real.exp cs mx1 my1 mz1 mxwall mywall mzwall mx2 my2 mz2 x y z).Y ≤
          max (if x < 0 then my1 else my2) mywall) ∧
      (min (if x < 0 then mz1 else mz2) mzwall ≤
          (TwoDomain Real.exp cs mx1 my1 mz1 mxwall mywall mzwall mx2 my2 mz2 x y z).Z ∧
        (TwoDomain Real.exp cs mx1 my1 mz1 mxwall mywall mzwall mx2 my2 mz2 x y z).Z ≤
          max (if x < 0 then mz1 else mz2) mzwall) ∧
      (x = 0 →
        TwoDomain Real.exp cs mx1 my1 mz1 mxwall mywall mzwall mx2 my2 mz2 x y z =
          ⟨mxwall, mywall, mzwall⟩) := by
  have _ := hcs
  have hg0 : 0 < Real.exp (-(x / (2 * cs)) ^ 2) := Real.exp_pos _
  have hg1 : Real.exp (-(x / (2 * cs)) ^ 2) ≤ 1 := by
    have : -(x / (2 * cs)) ^ 2 ≤ 0 := by nlinarith [sq_nonneg (x / (2 * cs))]
    simpa using Real.exp_le_exp.mpr this
  have hr : TwoDomain Real.exp cs mx1 my1 mz1 mxwall mywall mzwall mx2 my2 mz2 x y z =
      ⟨(1 - Real.exp (-(x / (2 * cs)) ^ 2)) * (if x < 0 then mx1 else mx2) +
          Real.exp (-(x / (2 * cs)) ^ 2) * mxwall,
        (1 - Real.exp (-(x / (2 * cs)) ^ 2)) * (if x < 0 then my1 else my2) +
          Real.exp (-(x / (2 * cs)) ^ 2) * mywall,
        (1 - Real.exp (-(x / (2 * cs)) ^ 2)) * (if x < 0 then mz1 else mz2) +
          Real.exp (-(x / (2 * cs)) ^ 2) * mzwall⟩ := by
    by_cases hx : x < 0 <;> simp only [TwoDomain, sqr64, pow_two, hx, if_true, if_false]
  have between : ∀ a b : ℝ,
      min a b ≤ (1 - Real.exp (-(x / (2 * cs)) ^ 2)) * a + Real.exp (-(x / (2 * cs)) ^ 2) * b ∧
      (1 - Real.exp (-(x / (2 * cs)) ^ 2)) * a + Real.exp (-(x / (2 * cs)) ^ 2) * b ≤
        max a b := by
    intro a b
    have h1 : 0 ≤ 1 - Real.exp (-(x / (2 * cs)) ^ 2) := by linarith
    constructor
    · have ha := min_le_left a b
      have hb := min_le_right a b
      nlinarith
    · have ha := le_max_left a b
      have hb := le_max_right a b
      nlinarith
  refine ⟨hr, ?_, ?_, ?_, ?_⟩
  · rw [hr]; exact between _ _
  · rw [hr]; exact between _ _
  · rw [hr]; exact between _ _
  · intro hx
    rw [hr]
    have : Real.exp (-(x / (2 * cs)) ^ 2) = 1 := by simp [hx]
    simp [this]

/-- Witness of C7: cell size `1`, head-to-head domains with a transverse (Néel) wall,
evaluated at the origin. -/
theorem TwoDomain_profile_witness :
    (1 : ℝ) ≠ 0 ∧ TwoDomain Real.exp (1 : ℝ) 1 0 0 0 1 0 (-1) 0 0 0 0 0 = ⟨0, 1, 0⟩ :=
  ⟨one_ne_zero, (TwoDomain_profile 1 one_ne_zero 1 0 0 0 1 0 (-1) 0 0 0 0 0).2.2.2.2 rfl⟩

/-- C8: over the reals, `RotZ` is the rotation about the Z axis over `θ` radians,
counter-clockwise seen from `+z`, and it composes additively. The rotated configuration
at the rotated position `(x cos θ - y sin θ, x sin θ + y cos θ, z)` is the vector of `c`
at `(x, y, z)` turned by the same angle, with its Z component kept; at an arbitrary
position it is the turned vector of `c` at the position turned back; `c.RotZ(a).RotZ(b)`
evaluated at `(x, y, z)` equals `c.RotZ(a+b)` evaluated there; and `c.RotZ(0)` evaluates
to the same vector as `c`. -/
theorem RotZ_rotation (c : Config ℝ) (a b x y z : ℝ) :
    Config.RotZ Real.cos Real.sin (Config.RotZ Real.cos Real.sin c a) b x y z =
        Config.RotZ Real.cos Real.sin c (a + b) x y z ∧
      Config.RotZ Real.cos Real.sin c 0 x y z = c x y z ∧
      Config.RotZ Real.cos Real.sin c a
          (x * Real.cos a - y * Real.sin a) (x * Real.sin a + y * Real.cos a) z =
        ⟨(c x y z).X * Real.cos a - (c x y z).Y * Real.sin a,
          (c x y z).X * Real.sin a + (c x y z).Y * Real.cos a, (c x y z).Z⟩ ∧
      Config.RotZ Real.cos Real.sin c a x y z =
        ⟨(c (x * Real.cos a + y * Real.sin a) (-x * Real.sin a + y * Real.cos a) z).X *
              Real.cos a -
            (c (x * Real.cos a + y * Real.sin a) (-x * Real.sin a + y * Real.cos a) z).Y *
              Real.sin a,
          (c (x * Real.cos a + y * Real.sin a) (-x * Real.sin a + y * Real.cos a) z).X *
              Real.sin a +
            (c (x * Real.cos a + y * Real.sin a) (-x * Real.sin a + y * Real.cos a) z).Y *
              Real.cos a,
          (c (x * Real.cos a + y * Real.sin a) (-x * Real.sin a + y * Real.cos a) z).Z⟩ ∧
      Config.RotZ Real.cos Real.sin (Uniform 1 0 0) a x y z =
        ⟨Real.cos a, Real.sin a, 0⟩ := by
  refine ⟨?_, ?_, ?_, rfl, ?_⟩
  · have hx : (x * Real.cos b + y * Real.sin b) * Real.cos a +
        (-x * Real.sin b + y * Real.cos b) * Real.sin a =
        x * Real.cos (a + b) + y * Real.sin (a + b) := by
      rw [Real.cos_add, Real.sin_add]; ring
    have hy : -(x * Real.cos b + y * Real.sin b) * Real.sin a +
        (-x * Real.sin b + y * Real.cos b) * Real.cos a =
        -x * Real.sin (a + b) + y * Real.cos (a + b) := by
      rw [Real.cos_add, Real.sin_add]; ring
    simp only [Config.RotZ, hx, hy]
    rw [Real.cos_add, Real.sin_add]
    congr 1 <;> ring
  · simp [Config.RotZ]
  · have hcs : Real.cos a * Real.cos a + Real.sin a * Real.sin a = 1 := by
      have := Real.cos_sq_add_sin_sq a
      nlinarith
    have hx : (x * Real.cos a - y * Real.sin a) * Real.cos a +
        (x * Real.sin a + y * Real.cos a) * Real.sin a = x := by
      have : (x * Real.cos a - y * Real.sin a) * Real.cos a +
          (x * Real.sin a + y * Real.cos a) * Real.sin a =
          x * (Real.cos a * Real.cos a + Real.sin a * Real.sin a) := by ring
      rw [this, hcs, mul_one]
    have hy : -(x * Real.cos a - y * Real.sin a) * Real.sin a +
        (x * Real.sin a + y * Real.cos a) * Real.cos a = y := by
      have : -(x * Real.cos a - y * Real.sin a) * Real.sin a +
          (x * Real.sin a + y * Real.cos a) * Real.cos a =
          y * (Real.cos a * Real.cos a + Real.sin a * Real.sin a) := by ring
      rw [this, hcs, mul_one]
    simp only [Config.RotZ, hx, hy]
  · simp [Config.RotZ, Uniform]

/-- C9: over the reals, for `circ` in `{+1, -1}`, any `pol` and `(x, y) ≠ (0, 0)`, the
in-plane part `(mx, my)` of `Vortex(circ, pol)(x, y, z)` has unit length, is perpendicular
to `(x, y)`, satisfies `x*my - y*mx = circ * sqrt(x^2 + y^2)`, and `mz` has the sign of
`pol`. No condition on the cell size `cs` is needed: the exponential is positive
whatever its argument. -/
theorem Vortex_inplane (cs : ℝ) (circ pol : Int) (x y z : ℝ)
    (hcirc : circ = 1 ∨ circ = -1) (hxy : (x, y) ≠ (0, 0)) :
    Real.sqrt ((Vortex Real.sqrt Real.exp cs circ pol x y z).X ^ 2 +
        (Vortex Real.sqrt Real.exp cs circ pol x y z).Y ^ 2) = 1 ∧
      x * (Vortex Real.sqrt Real.exp cs circ pol x y z).X +
        y * (Vortex Real.sqrt Real.exp cs circ pol x y z).Y = 0 ∧
      x * (Vortex Real.sqrt Real.exp cs circ pol x y z).Y -
        y * (Vortex Real.sqrt Real.exp cs circ pol x y z).X =
          (circ : ℝ) * Real.sqrt (x ^ 2 + y ^ 2) ∧
      SignType.sign (Vortex Real.sqrt Real.exp cs circ pol x y z).Z = SignType.sign pol := by
  generalize hm : Vortex Real.sqrt Real.exp cs circ pol x y z = m
  have hX : m.X = -y * (circ : ℝ) / Real.sqrt (x * x + y * y) := by rw [← hm]; rfl
  have hY : m.Y = x * (circ : ℝ) / Real.sqrt (x * x + y * y) := by rw [← hm]; rfl
  have hZ : m.Z = 1.5 * (pol : ℝ) * Real.exp (-(x * x + y * y) / (2 * sqr64 cs)) := by
    rw [← hm]; rfl
  have hr2 : 0 < x * x + y * y := by
    have : x ≠ 0 ∨ y ≠ 0 := by
      by_contra h
      push_neg at h
      exact hxy (by rw [h.1, h.2])
    rcases this with h | h
    · have := mul_self_pos.mpr h
      nlinarith [mul_self_nonneg y]
    · have := mul_self_pos.mpr h
      nlinarith [mul_self_nonneg x]
  have hr : 0 < Real.sqrt (x * x + y * y) := Real.sqrt_pos.mpr hr2
  have hrr : Real.sqrt (x * x + y * y) * Real.sqrt (x * x + y * y) = x * x + y * y :=
    Real.mul_self_sqrt hr2.le
  have hc2 : (circ : ℝ) * (circ : ℝ) = 1 := by
    rcases hcirc with h | h <;> simp [h]
  have hsq : m.X ^ 2 + m.Y ^ 2 = 1 := by
    rw [hX, hY]
    field_simp
    nlinarith
  refine ⟨by rw [hsq, Real.sqrt_one], ?_, ?_, ?_⟩
  · rw [hX, hY]
    field_simp
    ring
  · rw [hX, hY, show x ^ 2 + y ^ 2 = x * x + y * y by ring]
    field_simp
    rw [mul_assoc (circ : ℝ), hrr]
    ring
  · rw [hZ]
    have he := Real.exp_pos (-(x * x + y * y) / (2 * sqr64 cs))
    rcases lt_trichotomy pol 0 with h | h | h
    · have hp : (pol : ℝ) < 0 := by exact_mod_cast h
      rw [sign_neg h, sign_neg]
      have : 1.5 * (pol : ℝ) < 0 := by linarith
      exact mul_neg_of_neg_of_pos this he
    · simp [h]
    · have hp : (0 : ℝ) < pol := by exact_mod_cast h
      rw [sign_pos h, sign_pos]
      have : 0 < 1.5 * (pol : ℝ) := by linarith
      exact mul_pos this he

/-- Witness of C9: the counter-clockwise vortex with core up, two units along x. -/
theorem Vortex_inplane_witness :
    ((1 : Int) = 1 ∨ (1 : Int) = -1) ∧ ((2 : ℝ), (0 : ℝ)) ≠ (0, 0) ∧
      (2 : ℝ) * (Vortex Real.sqrt Real.exp 1 1 1 2 0 0).X +
        0 * (Vortex Real.sqrt Real.exp 1 1 1 2 0 0).Y = 0 :=
  ⟨Or.inl rfl, by simp, (Vortex_inplane 1 1 1 2 0 0 (Or.inl rfl) (by simp)).2.1⟩

/-! ## Theorems: mumax3/main.go -/

/-- The run of `RunFileAndServe` in each of the three cases of its two fallible calls. -/
theorem RunFileAndServe_exec {Code : Type} (w : World Code) (fname : String) :
    (RunFileAndServe w fname).exec =
      match w.ReadFile fname with
      | .error err => (.error err, [Event.ReadFile fname, Event.Fatal err])
      | .ok bytes =>
        match w.Compile bytes with
        | .error err => (.error err, [Event.ReadFile fname, Event.Compile bytes, Event.Fatal err])
        | .ok code =>
          (.ok (), [Event.ReadFile fname, Event.Compile bytes, Event.GoServe w.flag_port,
            Event.Eval code]) := by
  unfold RunFileAndServe Run.exec
  cases hr : w.ReadFile fname with
  | error err => rfl
  | ok bytes =>
    cases hc : w.Compile bytes with
    | error err => simp only [FatalErr, pure_bind, hc]; rfl
    | ok code => simp only [FatalErr, pure_bind, hc]; rfl

/-- C3: in `RunFileAndServe`, when reading the file or compiling the whole script returns
an error, the run is aborted with that error and neither the web server is started nor a
statement evaluated; and `code.Eval()` happens only with the code that the compilation of
the whole file returned without error, after that compilation. -/
theorem RunFileAndServe_fails_fast {Code : Type} (w : World Code) (fname : String) :
    (∀ err, w.ReadFile fname = .error err →
        (RunFileAndServe w fname).exec.1 = .error err ∧
        served (RunFileAndServe w fname).exec.2 = false ∧
        evaluated (RunFileAndServe w fname).exec.2 = false) ∧
      (∀ bytes err, w.ReadFile fname = .ok bytes → w.Compile bytes = .error err →
        (RunFileAndServe w fname).exec.1 = .error err ∧
        served (RunFileAndServe w fname).exec.2 = false ∧
        evaluated (RunFileAndServe w fname).exec.2 = false) ∧
      (∀ code before after,
        (RunFileAndServe w fname).exec.2 = before ++ Event.Eval code :: after →
        ∃ bytes, w.ReadFile fname = .ok bytes ∧ w.Compile bytes = .ok code ∧
          Event.Compile bytes ∈ before ∧ evaluated before = false) := by
  rw [RunFileAndServe_exec]
  refine ⟨?_, ?_, ?_⟩
  · intro err h
    rw [h]
    exact ⟨rfl, rfl, rfl⟩
  · intro bytes err h hc
    rw [h]
    simp [hc, served, evaluated]
  · intro code before after h
    cases hr : w.ReadFile fname with
    | error err =>
      rw [hr] at h
      rcases before with _ | ⟨b0, _ | ⟨b1, _ | ⟨b2, rest⟩⟩⟩ <;> simp at h
    | ok bytes =>
      rw [hr] at h
      cases hc : w.Compile bytes with
      | error err =>
        simp only [hc] at h
        rcases before with _ | ⟨b0, _ | ⟨b1, _ | ⟨b2, _ | ⟨b3, rest⟩⟩⟩⟩ <;> simp at h
      | ok code' =>
        simp only [hc] at h
        rcases before with _ | ⟨b0, _ | ⟨b1, _ | ⟨b2, _ | ⟨b3, _ | ⟨b4, rest⟩⟩⟩⟩⟩ <;> simp at h
        obtain ⟨h0, h1, h2, h3, -⟩ := h
        subst h0 h1 h2 h3
        exact ⟨bytes, rfl, hc, by simp, rfl⟩

/-- Witness of C3: a script that does not compile is never served nor evaluated, and a
script that compiles is evaluated after its compilation. -/
theorem RunFileAndServe_fails_fast_witness :
    (RunFileAndServe (⟨fun _ => .ok "bogus 1 2 3", fun _ => .error "undefined: bogus",
        ":35367"⟩ : World Nat) "a.txt").exec =
        (.error "undefined: bogus",
          [Event.ReadFile "a.txt", Event.Compile "bogus 1 2 3", Event.Fatal "undefined: bogus"]) ∧
      evaluated (RunFileAndServe (⟨fun _ => .ok "bogus 1 2 3",
        fun _ => .error "undefined: bogus", ":35367"⟩ : World Nat) "a.txt").exec.2 = false ∧
      (RunFileAndServe (⟨fun _ => .ok "m = uniform(1, 0, 0)", fun _ => .ok 7,
        ":35367"⟩ : World Nat) "a.txt").exec =
        (.ok (), [Event.ReadFile "a.txt", Event.Compile "m = uniform(1, 0, 0)",
          Event.GoServe ":35367", Event.Eval 7]) :=
  ⟨rfl, ((RunFileAndServe_fails_fast (⟨fun _ => .ok "bogus 1 2 3",
      fun _ => .error "undefined: bogus", ":35367"⟩ : World Nat) "a.txt").2.1
      "bogus 1 2 3" "undefined: bogus" rfl rfl).2.2, rfl⟩

/-! ## Theorems: doc/apigen.go, the filters -/

/-- Touch the pointers of a list, first to last. -/
theorem touchAll_cell (L : List Ptr) (s : Store) (p : Ptr) :
    ((L.foldl Store.touch s).cell p).touched = ((s.cell p).touched || decide (p ∈ L)) ∧
      ((L.foldl Store.touch s).cell p).name = (s.cell p).name ∧
      ((L.foldl Store.touch s).cell p).Typ = (s.cell p).Typ := by
  induction L generalizing s with
  | nil => simp
  | cons e L ih =>
    rw [List.foldl_cons]
    obtain ⟨h1, h2, h3⟩ := ih (s.touch e)
    rw [h1, h2, h3]
    by_cases hpe : p = e
    · subst hpe
      simp [Store.touch]
    · simp [Store.touch, Function.update_noteq hpe, hpe]

/-- The loop of `remaining` keeps exactly the untouched entries, in order. -/
theorem remaining_eq_filter (a : api) (s : Store) :
    a.remaining s = a.Entries.filter (fun e => !(s.cell e).touched) := by
  unfold api.remaining
  suffices h : ∀ (L E : List Ptr),
      L.foldl (fun E e => if !(s.cell e).touched then E ++ [e] else E) E =
        E ++ L.filter (fun e => !(s.cell e).touched) by
    simpa using h a.Entries []
  intro L
  induction L with
  | nil => intro E; simp
  | cons e L ih =>
    intro E
    rw [List.foldl_cons, ih]
    by_cases ht : (s.cell e).touched <;> simp [ht]

/-- The inner loop of a pattern filter: `e` is appended once for every pattern that
matches, and the store is touched at `e` as often. -/
theorem filter_inner (cond : String → entry → Bool)
    (hcond : ∀ t (s : Store) (L : List Ptr) (e : Ptr),
      cond t ((L.foldl Store.touch s).cell e) = cond t (s.cell e))
    (s : Store) (e : Ptr) (typ : List String) (E : List Ptr) :
    typ.foldl (fun (acc : List Ptr × Store) t =>
        if cond t (acc.2.cell e) then (acc.1 ++ [e], acc.2.touch e) else acc)
        (E, E.foldl Store.touch s) =
      (E ++ List.replicate (typ.countP (fun t => cond t (s.cell e))) e,
        (E ++ List.replicate (typ.countP (fun t => cond t (s.cell e))) e).foldl Store.touch s) := by
  induction typ generalizing E with
  | nil => simp
  | cons t typ ih =>
    rw [List.foldl_cons]
    simp only [hcond]
    by_cases hc : cond t (s.cell e) = true
    · have hstep : (E.foldl Store.touch s).touch e = (E ++ [e]).foldl Store.touch s := by
        rw [List.foldl_append]; rfl
      simp only [hc, if_true, hstep]
      rw [ih (E ++ [e])]
      simp [List.countP_cons, hc, List.replicate_succ, List.append_assoc]
    · simp only [hc]
      rw [if_neg (by simp), ih E]
      simp [List.countP_cons, hc]

/-- The two nested loops of a filter: each remaining entry is returned once for every
pattern that matches it, and exactly the returned entries are touched. -/
theorem filter_outer (cond : String → entry → Bool)
    (hcond : ∀ t (s : Store) (L : List Ptr) (e : Ptr),
      cond t ((L.foldl Store.touch s).cell e) = cond t (s.cell e))
    (s : Store) (typ : List String) (R E : List Ptr) :
    R.foldl (fun (acc : List Ptr × Store) e =>
        typ.foldl (fun (acc : List Ptr × Store) t =>
          if cond t (acc.2.cell e) then (acc.1 ++ [e], acc.2.touch e) else acc) acc)
        (E, E.foldl Store.touch s) =
      (E ++ R.flatMap (fun e => List.replicate (typ.countP (fun t => cond t (s.cell e))) e),
        (E ++ R.flatMap (fun e =>
          List.replicate (typ.countP (fun t => cond t (s.cell e))) e)).foldl Store.touch s) := by
  induction R generalizing E with
  | nil => simp
  | cons e R ih =>
    rw [List.foldl_cons, filter_inner cond hcond s e typ E, ih]
    simp [List.flatMap_cons, List.append_assoc]

/-- Entries returned at most once each are the remaining entries that some pattern
matches. -/
theorem flatMap_replicate_of_le_one (k : Ptr → Nat) (hk : ∀ e, k e ≤ 1) (R : List Ptr) :
    R.flatMap (fun e => List.replicate (k e) e) = R.filter (fun e => decide (0 < k e)) := by
  induction R with
  | nil => rfl
  | cons e R ih =>
    rw [List.flatMap_cons, ih]
    have := hk e
    rcases Nat.eq_zero_or_pos (k e) with h0 | h1
    · simp [h0]
    · have h : k e = 1 := by omega
      simp [h]

/-- One filter call splits the entries not used so far into those it returns and those
still not used, when no entry is matched by two of its patterns. -/
theorem filter_split (cond : String → entry → Bool)
    (hcond : ∀ t (s : Store) (L : List Ptr) (e : Ptr),
      cond t ((L.foldl Store.touch s).cell e) = cond t (s.cell e))
    (a : api) (typ : List String) (s : Store)
    (hk : ∀ e, typ.countP (fun t => cond t (s.cell e)) ≤ 1) :
    List.Perm
      (((a.remaining s).foldl (fun (acc : List Ptr × Store) e =>
        typ.foldl (fun (acc : List Ptr × Store) t =>
          if cond t (acc.2.cell e) then (acc.1 ++ [e], acc.2.touch e) else acc) acc) ([], s)).1 ++
        a.remaining ((a.remaining s).foldl (fun (acc : List Ptr × Store) e =>
          typ.foldl (fun (acc : List Ptr × Store) t =>
            if cond t (acc.2.cell e) then (acc.1 ++ [e], acc.2.touch e) else acc) acc) ([], s)).2)
      (a.remaining s) := by
  have hloop := filter_outer cond hcond s typ (a.remaining s) []
  simp only [List.foldl_nil, List.nil_append] at hloop
  rw [hloop, flatMap_replicate_of_le_one _ hk]
  simp only
  have hrem : a.remaining (((a.remaining s).filter
      (fun e => decide (0 < typ.countP (fun t => cond t (s.cell e))))).foldl Store.touch s) =
      (a.remaining s).filter
        (fun e => !decide (0 < typ.countP (fun t => cond t (s.cell e)))) := by
    have e2 : (a.Entries.filter (fun e => !(s.cell e).touched)).filter
        (fun e => !decide (0 < typ.countP (fun t => cond t (s.cell e)))) =
        a.Entries.filter (fun e => !decide (0 < typ.countP (fun t => cond t (s.cell e))) &&
          !(s.cell e).touched) := by
      rw [List.filter_filter]
    simp only [remaining_eq_filter]
    rw [e2]
    apply List.filter_congr
    intro e he
    rw [(touchAll_cell _ s e).1]
    by_cases ht : (s.cell e).touched
    · simp [ht]
    · simp only [List.mem_filter]
      generalize typ.countP (fun t => cond t (s.cell e)) = n
      by_cases hp : 0 < n
      · simp [ht, hp, List.mem_filter, he]
      · simp [ht, hp, List.mem_filter]
  rw [hrem]
  exact List.filter_append_perm _ _

/-- Among patterns that are pairwise different once lower-cased, at most one matches a
given string. -/
theorem match_count_le_one (ToLower : String → String) (typ : List String)
    (hnd : (typ.map ToLower).Nodup) (subj : String) (b : Bool) :
    typ.countP (fun t => matchStr ToLower t subj && b) ≤ 1 := by
  have h1 : typ.countP (fun t => matchStr ToLower t subj && b) ≤
      typ.countP ((fun x => x == ToLower subj) ∘ ToLower) := by
    apply List.countP_mono_left
    intro t _ ht
    simp only [matchStr, Bool.and_eq_true] at ht
    simpa using ht.1
  have h2 : typ.countP ((fun x => x == ToLower subj) ∘ ToLower) =
      (typ.map ToLower).count (ToLower subj) := by
    rw [List.count_eq_countP, List.countP_map]
  have h3 := List.nodup_iff_count_le_one.mp hnd (ToLower subj)
  omega

/-- One call of a filter of the template splits the entries not used so far into the
entries it returns and the entries not used afterwards. -/
theorem FilterCall_split (ToLower : String → String) (a : api) (c : FilterCall) (s : Store)
    (hpat : (c.patterns ToLower).Nodup) :
    List.Perm ((c.run ToLower a s).1 ++ a.remaining (c.run ToLower a s).2) (a.remaining s) := by
  cases c with
  | FilterType typ =>
    exact filter_split
      (fun t en => matchStr ToLower t en.Typ.str && !HasPrefix en.name "ext_")
      (fun t s L e => by
        simp only [(touchAll_cell L s e).2.1, (touchAll_cell L s e).2.2])
      a typ s (fun e => match_count_le_one ToLower typ hpat _ _)
  | FilterReturn typ =>
    exact filter_split
      (fun t en => matchStr ToLower t en.Ret && !HasPrefix en.name "ext_")
      (fun t s L e => by
        simp only [entry.Ret, (touchAll_cell L s e).2.1, (touchAll_cell L s e).2.2])
      a typ s (fun e => match_count_le_one ToLower typ hpat _ _)
  | FilterName typ =>
    exact filter_split
      (fun t en => matchStr ToLower t en.name && !HasPrefix en.name "ext_")
      (fun t s L e => by
        simp only [(touchAll_cell L s e).2.1])
      a typ s (fun e => match_count_le_one ToLower typ hpat _ _)
  | FilterPrefix pre =>
    have h := filter_split (fun t en => HasPrefix en.name t)
      (fun t s L e => by simp only [(touchAll_cell L s e).2.1])
      a [pre] s (fun e => by
        by_cases hp : HasPrefix (s.cell e).name pre = true <;> simp [hp])
    simpa [FilterCall.run, api.FilterPrefix] using h

/-- The lists returned by a sequence of filter calls followed by `FilterLeftovers` hold,
together, the entries not used before the first call. -/
theorem runFilters_perm_remaining (ToLower : String → String) (a : api)
    (calls : List FilterCall) (s : Store)
    (hpat : ∀ c ∈ calls, (c.patterns ToLower).Nodup) :
    List.Perm (runFilters ToLower a calls s).flatten (a.remaining s) := by
  induction calls generalizing s with
  | nil => simp [runFilters, api.FilterLeftovers]
  | cons c cs ih =>
    have hc := FilterCall_split ToLower a c s (hpat c (List.mem_cons_self _ _))
    have hcs := ih (c.run ToLower a s).2 (fun c' hc' => hpat c' (List.mem_cons_of_mem _ hc'))
    simp only [runFilters, List.flatten_cons]
    exact (List.Perm.append_left _ hcs).trans hc

/-- C10 (amended): `remaining` returns exactly the entries not used so far, and for every
list of entries, all initially untouched, and every sequence of `FilterType` /
`FilterReturn` / `FilterName` / `FilterPrefix` calls in which no call is given two patterns
that are equal once lower-cased, followed by `FilterLeftovers`, the concatenation of all
returned lists is a rearrangement of the list of entries: every entry (the entries being
distinct pointers) appears in it exactly once. -/
theorem filters_partition (ToLower : String → String) (a : api) (calls : List FilterCall)
    (s : Store) (hfresh : ∀ e ∈ a.Entries, (s.cell e).touched = false)
    (hpat : ∀ c ∈ calls, (c.patterns ToLower).Nodup) :
    a.remaining s = a.Entries.filter (fun e => !(s.cell e).touched) ∧
      List.Perm (runFilters ToLower a calls s).flatten a.Entries ∧
      (a.Entries.Nodup →
        ∀ e ∈ a.Entries, (runFilters ToLower a calls s).flatten.count e = 1) := by
  have hall : a.remaining s = a.Entries := by
    rw [remaining_eq_filter, List.filter_eq_self]
    intro e he
    simp [hfresh e he]
  have hperm : List.Perm (runFilters ToLower a calls s).flatten a.Entries := by
    have := runFilters_perm_remaining ToLower a calls s hpat
    rwa [hall] at this
  refine ⟨remaining_eq_filter a s, hperm, ?_⟩
  intro hnd e he
  rw [hperm.count_eq e]
  exact List.count_eq_one_of_mem hnd he

/-- Witness of C10 (amended): three entries, the parameters listed by type, the
extensions by prefix, the rest left over. -/
theorem filters_partition_witness :
    (runFilters asciiToLower ⟨[0, 1, 2]⟩
      [FilterCall.FilterType ["float64", "int"], FilterCall.FilterPrefix "ext_"]
      sampleStore).flatten.count 1 = 1 :=
  (filters_partition asciiToLower ⟨[0, 1, 2]⟩
    [FilterCall.FilterType ["float64", "int"], FilterCall.FilterPrefix "ext_"] sampleStore
    (by decide) (by decide)).2.2 (by decide) 1 (by decide)

/-- Counterexample to C10 as stated: one untouched entry of type `float64` and the call
`FilterType("float64", "float64")`; the entry is returned twice. -/
theorem filters_partition_counterexample :
    (sampleStore.cell 0).touched = false ∧
      runFilters asciiToLower ⟨[0]⟩ [FilterCall.FilterType ["float64", "float64"]] sampleStore =
        [[0, 0], []] ∧
      (runFilters asciiToLower ⟨[0]⟩ [FilterCall.FilterType ["float64", "float64"]]
        sampleStore).flatten.count 0 = 2 := by
  decide

/-! ## Theorems: doc/apigen.go, sorting the entries -/

/-- Reading the element right after a prefix. -/
theorem getD_after (A : List Ptr) (y : Ptr) (rest : List Ptr) :
    (A ++ y :: rest).getD A.length 0 = y := by
  induction A with
  | nil => rfl
  | cons a A ih => simpa using ih

/-- Reading the second element after a prefix. -/
theorem getD_after_succ (A : List Ptr) (y x : Ptr) (rest : List Ptr) :
    (A ++ y :: x :: rest).getD (A.length + 1) 0 = x := by
  induction A with
  | nil => rfl
  | cons a A ih => simpa using ih

/-- `Swap(j, j-1)` exchanges the two elements right after a prefix of length `j-1`. -/
theorem Swap_after (A : List Ptr) (y x : Ptr) (rest : List Ptr) :
    entries.Swap (A ++ y :: x :: rest) (A.length + 1) A.length = A ++ x :: y :: rest := by
  unfold entries.Swap
  rw [getD_after, getD_after_succ]
  induction A with
  | nil => rfl
  | cons a A ih => simp

/-- The inner loop of the insertion sort, started right after a prefix, inserts the
element found there into the prefix: in the prefix read backwards it passes every entry
whose key is greater. -/
theorem sortSink_spec (ToLower : String → String) (s : Store) (l : List Ptr) (x : Ptr)
    (post : List Ptr) :
    sortSink ToLower s 0 l.length (l.reverse ++ x :: post) =
      (List.orderedInsert
        (fun a b => ToLower (s.cell b).name ≤ ToLower (s.cell a).name) x l).reverse ++ post := by
  induction l generalizing post with
  | nil => rfl
  | cons y l ih =>
    have he : (y :: l).reverse ++ x :: post = l.reverse ++ y :: x :: post := by simp
    have hlen : l.length = l.reverse.length := by simp
    have hLess : entries.Less ToLower s (l.reverse ++ y :: x :: post) (l.length + 1) l.length =
        decide (ToLower (s.cell x).name < ToLower (s.cell y).name) := by
      unfold entries.Less
      rw [hlen, getD_after, getD_after_succ]
    have hSwap : entries.Swap (l.reverse ++ y :: x :: post) (l.length + 1) l.length =
        l.reverse ++ x :: y :: post := by
      rw [hlen, Swap_after]
    rw [he, List.length_cons]
    unfold sortSink
    rw [hLess, hSwap]
    by_cases hxy : ToLower (s.cell x).name < ToLower (s.cell y).name
    · have hnle : ¬ ToLower (s.cell y).name ≤ ToLower (s.cell x).name := not_le.mpr hxy
      simp only [List.orderedInsert, hnle, if_false]
      rw [ih (y :: post)]
      simp [hxy]
    · have hle : ToLower (s.cell y).name ≤ ToLower (s.cell x).name := not_lt.mp hxy
      simp [List.orderedInsert, hle, hxy]

/-- The outer loop of the insertion sort, entered with a sorted prefix, ends with a
sorted rearrangement of the slice. -/
theorem insertion_loop (ToLower : String → String) (s : Store) (post pre : List Ptr)
    (hpre : List.Sorted (fun a b => ToLower (s.cell a).name ≤ ToLower (s.cell b).name) pre) :
    List.Sorted (fun a b => ToLower (s.cell a).name ≤ ToLower (s.cell b).name)
        ((List.range' pre.length post.length).foldl
          (fun e i => sortSink ToLower s 0 i e) (pre ++ post)) ∧
      List.Perm ((List.range' pre.length post.length).foldl
          (fun e i => sortSink ToLower s 0 i e) (pre ++ post)) (pre ++ post) := by
  induction post generalizing pre with
  | nil => simpa using hpre
  | cons x post ih =>
    haveI : IsTotal Ptr (fun a b => ToLower (s.cell b).name ≤ ToLower (s.cell a).name) :=
      ⟨fun a b => le_total _ _⟩
    haveI : IsTrans Ptr (fun a b => ToLower (s.cell b).name ≤ ToLower (s.cell a).name) :=
      ⟨fun a b c hab hbc => le_trans hbc hab⟩
    have hstep := sortSink_spec ToLower s pre.reverse x post
    rw [List.reverse_reverse, List.length_reverse] at hstep
    have hrev : List.Sorted (fun a b => ToLower (s.cell b).name ≤ ToLower (s.cell a).name)
        pre.reverse := List.pairwise_reverse.mpr hpre
    have hins := List.Sorted.orderedInsert x pre.reverse hrev
    have hsorted : List.Sorted (fun a b => ToLower (s.cell a).name ≤ ToLower (s.cell b).name)
        (List.orderedInsert (fun a b => ToLower (s.cell b).name ≤ ToLower (s.cell a).name)
          x pre.reverse).reverse := List.pairwise_reverse.mpr hins
    have hperm : List.Perm
        (List.orderedInsert (fun a b => ToLower (s.cell b).name ≤ ToLower (s.cell a).name)
          x pre.reverse).reverse (pre ++ [x]) := by
      refine (List.reverse_perm _).trans ((List.perm_orderedInsert _ x pre.reverse).trans ?_)
      exact (List.Perm.cons x (List.reverse_perm pre)).trans (List.perm_append_singleton x pre).symm
    have hlen : (List.orderedInsert (fun a b => ToLower (s.cell b).name ≤ ToLower (s.cell a).name)
          x pre.reverse).reverse.length = pre.length + 1 := by
      simpa using hperm.length_eq
    obtain ⟨h1, h2⟩ := ih _ hsorted
    rw [hlen] at h1 h2
    rw [List.length_cons, List.range'_succ, List.foldl_cons, hstep]
    refine ⟨h1, h2.trans ?_⟩
    have := List.Perm.append_right post hperm
    simpa using this

/-- The sort of `buildAPI` returns a rearrangement of the slice that is sorted by
lower-cased name. -/
theorem sortSort_sorted_perm (ToLower : String → String) (s : Store) (e : entries) :
    List.Sorted (fun a b => ToLower (s.cell a).name ≤ ToLower (s.cell b).name)
        (sortSort ToLower s e) ∧
      List.Perm (sortSort ToLower s e) e := by
  unfold sortSort insertionSort entries.Len
  cases e with
  | nil => simp
  | cons x post =>
    have h := insertion_loop ToLower s post [x] (List.sorted_singleton x)
    simpa using h

/-- The loop of `buildAPI` over the pairs of `doc`, when every name has its identifier:
it allocates one entry for each pair, in the order visited, at consecutive fresh
addresses, and leaves the entries allocated before alone. -/
theorem buildLoop_spec (ToLower : String → String) (ident : String → Option ReflectType)
    (typ : String → ReflectType) (doc : List (String × String))
    (hident : ∀ Kv ∈ doc, ident (ToLower Kv.1) = some (typ (ToLower Kv.1)))
    (e0 : entries) (s0 : Store) (m0 : String → Option entry) :
    ∃ s m, doc.foldl (buildStep ToLower ident) (some (e0, s0, m0)) =
          some (e0 ++ List.range' s0.next doc.length, s, m) ∧
        (∀ p, p < s0.next → s.cell p = s0.cell p) ∧
        (List.range' s0.next doc.length).map s.cell =
          doc.map (fun Kv => (⟨Kv.1, typ (ToLower Kv.1), Kv.2, false⟩ : entry)) := by
  induction doc generalizing e0 s0 m0 with
  | nil => exact ⟨s0, m0, by simp, fun _ _ => rfl, by simp⟩
  | cons Kv rest ih =>
    have hKv := hident Kv (List.mem_cons_self _ _)
    obtain ⟨s, m, hfold, hold, hnew⟩ := ih (fun Kv' h => hident Kv' (List.mem_cons_of_mem _ h))
      (e0 ++ [s0.next])
      ⟨s0.next + 1, Function.update s0.cell s0.next ⟨Kv.1, typ (ToLower Kv.1), Kv.2, false⟩⟩
      (Function.update m0 (ToLower Kv.1) (some ⟨Kv.1, typ (ToLower Kv.1), Kv.2, false⟩))
    refine ⟨s, m, ?_, ?_, ?_⟩
    · rw [List.foldl_cons]
      simp only [buildStep, hKv, Store.alloc]
      rw [hfold]
      simp [List.range'_succ]
    · intro p hp
      rw [hold p (Nat.lt_succ_of_lt hp)]
      exact Function.update_noteq (Nat.ne_of_lt hp) _ _
    · rw [List.length_cons, List.range'_succ, List.map_cons, List.map_cons, hnew,
        hold s0.next (Nat.lt_succ_self _)]
      simp

/-- `entries.Less` compares the characters of the lower-cased names, lexicographically. -/
theorem Less_eq_toList (ToLower : String → String) (s : Store) (e : entries) (i j : Nat) :
    entries.Less ToLower s e i j =
      decide ((ToLower (s.cell (e.getD i 0)).name).toList <
        (ToLower (s.cell (e.getD j 0)).name).toList) := by
  unfold entries.Less
  simp only [String.lt_iff_toList_lt]

/-- The three sample names, visited in the order `Msat`, `alpha`, `Uniform`, come out in
the order `alpha`, `Msat`, `Uniform`. -/
theorem buildAPI_sample :
    (buildAPI asciiToLower sampleIdent sampleDoc).map (fun st => st.api_entries) =
      some [1, 0, 2] := by
  have h1 : sampleIdent (asciiToLower "Msat") = some ⟨"float64", false, []⟩ := by decide
  have h2 : sampleIdent (asciiToLower "alpha") = some ⟨"float64", false, []⟩ := by decide
  have h3 : sampleIdent (asciiToLower "Uniform") =
      some ⟨"func(float64, float64, float64) engine.Config", true, ["engine.Config"]⟩ := by
    decide
  simp only [buildAPI, sampleDoc, List.foldl, buildStep, sortSort, insertionSort, entries.Len,
    h1, h2, h3]
  simp only [Store.alloc, Store.empty, List.nil_append, List.cons_append, List.length_cons,
    List.length_nil, Option.map]
  simp only [List.range', List.foldl, sortSink, Less_eq_toList]
  decide

/-- C5: after `buildAPI` (every documented name having its identifier, so that the run
does not panic), `api_entries` is a rearrangement of the entries built from the
documentation map, one per documented name and each at its own address, and it is sorted
by lower-cased name: of two adjacent entries the lower-cased name of the first is not
greater than that of the second (and so for any two entries in order); `entries.Less`
compares the lower-cased names and is a strict weak order. -/
theorem buildAPI_sorted (ToLower : String → String) (ident : String → Option ReflectType)
    (typ : String → ReflectType) (doc : List (String × String))
    (hident : ∀ Kv ∈ doc, ident (ToLower Kv.1) = some (typ (ToLower Kv.1))) :
    ∃ st, buildAPI ToLower ident doc = some st ∧
      List.Perm (st.api_entries.map st.store.cell)
        (doc.map (fun Kv => (⟨Kv.1, typ (ToLower Kv.1), Kv.2, false⟩ : entry))) ∧
      st.api_entries.Nodup ∧
      List.Chain' (fun p q => ToLower (st.store.cell p).name ≤ ToLower (st.store.cell q).name)
        st.api_entries ∧
      List.Pairwise (fun p q => ToLower (st.store.cell p).name ≤ ToLower (st.store.cell q).name)
        st.api_entries ∧
      (∀ (e : entries) (i j : Nat), entries.Less ToLower st.store e i j = true ↔
        ToLower (st.store.cell (e.getD i 0)).name < ToLower (st.store.cell (e.getD j 0)).name) ∧
      (∀ (e : entries) (i : Nat), entries.Less ToLower st.store e i i = false) ∧
      (∀ (e : entries) (i j k : Nat), entries.Less ToLower st.store e i j = true →
        entries.Less ToLower st.store e j k = true → entries.Less ToLower st.store e i k = true) ∧
      (∀ (e : entries) (i j k : Nat),
        entries.Less ToLower st.store e i j = false ∧ entries.Less ToLower st.store e j i = false →
        entries.Less ToLower st.store e j k = false ∧ entries.Less ToLower st.store e k j = false →
        entries.Less ToLower st.store e i k = false ∧
          entries.Less ToLower st.store e k i = false) := by
  obtain ⟨s, m, hfold, -, hnew⟩ :=
    buildLoop_spec ToLower ident typ doc hident [] Store.empty (fun _ => none)
  obtain ⟨hsorted, hperm⟩ := sortSort_sorted_perm ToLower s (List.range' 0 doc.length)
  refine ⟨⟨s, sortSort ToLower s (List.range' 0 doc.length), m⟩, ?_, ?_, ?_, ?_, ?_, ?_, ?_, ?_, ?_⟩
  · unfold buildAPI
    rw [hfold]
    rfl
  · have h := hperm.map s.cell
    have h0 : Store.empty.next = 0 := rfl
    rw [h0] at hnew
    rw [hnew] at h
    exact h
  · exact hperm.nodup_iff.mpr (List.nodup_range' 0 doc.length)
  · exact List.Pairwise.chain' hsorted
  · exact hsorted
  · intro e i j
    simp [entries.Less]
  · intro e i
    simp [entries.Less]
  · intro e i j k hij hjk
    simp only [entries.Less, decide_eq_true_eq] at hij hjk ⊢
    exact lt_trans hij hjk
  · intro e i j k hij hjk
    simp only [entries.Less, decide_eq_false_iff_not, not_lt] at hij hjk ⊢
    exact ⟨le_trans hjk.1 hij.1, le_trans hij.2 hjk.2⟩

/-- Witness of C5: three documented names, visited in the order `Msat`, `alpha`,
`Uniform`; every name has its identifier, and sorted without regard to case the order is
`alpha`, `Msat`, `Uniform`. -/
theorem buildAPI_sorted_witness :
    (∀ Kv ∈ sampleDoc, sampleIdent (asciiToLower Kv.1) =
        some ((sampleIdent (asciiToLower Kv.1)).getD ⟨"", false, []⟩)) ∧
      (buildAPI asciiToLower sampleIdent sampleDoc).map (fun st => st.api_entries) =
        some [1, 0, 2] ∧
      ∃ st, buildAPI asciiToLower sampleIdent sampleDoc = some st ∧
        List.Perm (st.api_entries.map st.store.cell)
          (sampleDoc.map (fun Kv =>
            (⟨Kv.1, (sampleIdent (asciiToLower Kv.1)).getD ⟨"", false, []⟩, Kv.2, false⟩ :
              entry))) ∧
        st.api_entries.Nodup ∧
        List.Chain' (fun p q => asciiToLower (st.store.cell p).name ≤
          asciiToLower (st.store.cell q).name) st.api_entries :=
  ⟨by decide, buildAPI_sample,
    let ⟨st, h1, h2, h3, h4, _⟩ := buildAPI_sorted asciiToLower sampleIdent
      (fun k => (sampleIdent k).getD ⟨"", false, []⟩) sampleDoc (by decide)
    ⟨st, h1, h2, h3, h4⟩⟩

end Mumax
